import Mathlib

/-!
Verification development for the klaudiush hook-validation core: the hook
context data model, the validator dispatch/aggregation engine, the shell
command tokenizer, the git command extractor, and the git branch/add
validators. Go machine types are embedded as Lean structures over `String`,
`List` and `Bool`; Go `map[string]string` details payloads are embedded as
association lists (the code only ever builds and passes them through).
-/

deriving instance DecidableEq for Except

namespace Klaudiush

/-! ## Hook context (src/pkg/hook/context.go) -/

/-- EventType represents the type of hook event. -/
inductive EventType where
  | PreToolUse
  | PostToolUse
  | Notification
deriving DecidableEq

/-- ToolType represents the type of tool being used. -/
inductive ToolType where
  | Bash
  | Write
  | Edit
  | MultiEdit
  | Grep
  | Read
  | Glob
deriving DecidableEq

/-- ToolInput contains the raw tool input data (additional raw-JSON fields are
kept as an opaque association list; the embedded code never reads them). -/
structure ToolInput where
  command : String
  filePath : String
  path : String
  content : String
  oldString : String
  newString : String
  pattern : String
  additional : List (String × String)
deriving DecidableEq

/-- Context represents the complete hook invocation context. -/
structure Context where
  eventType : EventType
  toolName : ToolType
  toolInput : ToolInput
  notificationType : String
  rawJSON : String
deriving DecidableEq

/-- GetCommand returns the command from ToolInput. -/
def Context.GetCommand (c : Context) : String := c.toolInput.command

/-- GetFilePath returns the file path from ToolInput, preferring FilePath over Path. -/
def Context.GetFilePath (c : Context) : String :=
  if c.toolInput.filePath ≠ "" then c.toolInput.filePath else c.toolInput.path

/-- GetContent returns the file content from ToolInput. -/
def Context.GetContent (c : Context) : String := c.toolInput.content

/-- IsBashTool returns true if the tool is Bash. -/
def Context.IsBashTool (c : Context) : Bool := c.toolName == ToolType.Bash

/-- IsFileTool returns true if the tool is a file operation. -/
def Context.IsFileTool (c : Context) : Bool :=
  c.toolName == ToolType.Write || c.toolName == ToolType.Edit ||
    c.toolName == ToolType.MultiEdit

/-! ## Validator results (internal/validator, absent from src) -/

/-- Modelled from the spec: the Result produced by each validator
(spec section 3): passed flag, message, details mapping, shouldBlock flag. -/
structure Result where
  passed : Bool
  message : String
  details : List (String × String)
  shouldBlock : Bool
deriving DecidableEq

/-- Modelled from the spec: validator.Pass, a passing Result. -/
def Pass : Result := ⟨true, "", [], false⟩

/-- Modelled from the spec: validator.Fail, a blocking failing Result
(glossary: blocking marks a Result such that the operation must be prevented). -/
def Fail (msg : String) : Result := ⟨false, msg, [], true⟩

/-- Modelled from the spec: validator.Warn, a non-blocking failing Result
(spec section 7: degrade to passed=false, shouldBlock=false with a message). -/
def Warn (msg : String) : Result := ⟨false, msg, [], false⟩

/-- Modelled from the spec: Result.AddDetail attaches one key/value detail. -/
def Result.AddDetail (r : Result) (k v : String) : Result :=
  ⟨r.passed, r.message, r.details ++ [(k, v)], r.shouldBlock⟩

/-! ## Dispatcher (src/internal/dispatcher/dispatcher.go) -/

/-- ValidationError represents a validation failure. -/
structure ValidationError where
  validator : String
  message : String
  details : List (String × String)
  shouldBlock : Bool
deriving DecidableEq

/-- A validator capability: a name and a Validate operation (logging side
effects of the Go code are not modelled; they do not affect results). -/
structure Validator where
  name : String
  validate : Context → Result

/-- Modelled from the spec: one registry entry, a validator together with its
side-effect-free applicability predicate of event type, tool type and
notification type (spec section 4.4). -/
structure RegisteredValidator where
  validator : Validator
  appliesTo : EventType → ToolType → String → Bool

/-- Modelled from the spec: Registry.FindValidators evaluates every registered
predicate against the context and returns the matching validators,
preserving registration order (spec section 4.4). -/
def FindValidators (reg : List RegisteredValidator) (ctx : Context) : List Validator :=
  (reg.filter (fun rv => rv.appliesTo ctx.eventType ctx.toolName ctx.notificationType)).map
    (fun rv => rv.validator)

/-- The dispatch loop body of Dispatcher.Dispatch: run each validator in order,
skip passing results, wrap each failing Result into a ValidationError. -/
def dispatchLoop (ctx : Context) : List Validator → List ValidationError
  | [] => []
  | v :: rest =>
    if (v.validate ctx).passed then dispatchLoop ctx rest
    else
      ⟨v.name, (v.validate ctx).message, (v.validate ctx).details,
        (v.validate ctx).shouldBlock⟩ :: dispatchLoop ctx rest

/-- Dispatch validates the context using all matching validators; returns a
list of validation errors (empty if all pass, nil slice and empty slice both
embed as the empty list). -/
def Dispatch (reg : List RegisteredValidator) (ctx : Context) : List ValidationError :=
  let validators := FindValidators reg ctx
  if validators.isEmpty then [] else dispatchLoop ctx validators

/-- ShouldBlock returns true if any validation error should block the operation. -/
def ShouldBlock : List ValidationError → Bool
  | [] => false
  | e :: rest => if e.shouldBlock then true else ShouldBlock rest

/-! ## Shell tokenizer (pkg/parser, absent from src) -/

/-- Command represents one split shell command: the first de-quoted token as
name, the remaining tokens as args (src callers require args to exclude the
name: AddValidator tests cmd.Args[0] against "add" for a git add command,
and ParseGitCommand takes the subcommand from args[0]). -/
structure Command where
  name : String
  args : List String
deriving DecidableEq

/-- ParseResult holds the ordered list of split commands. -/
structure ParseResult where
  commands : List Command
deriving DecidableEq

/-- Quoting state of the tokenizer scan: outside quotes, inside single
quotes, or inside double quotes. -/
inductive QMode where
  | norm
  | single
  | double
deriving DecidableEq

/-- Close the current token: append it to the token list when a token is in
progress (started), else leave the list unchanged. -/
def flushTok (cur : List Char) (started : Bool) (toks : List String) : List String :=
  if started then toks ++ [String.mk cur] else toks

/-- Close the current command at a chaining boundary or end of input: flush
the pending token, then append the token list as one command unless it is
empty (whitespace/operator-only segments yield no Command). -/
def flushCmd (cur : List Char) (started : Bool) (toks : List String)
    (cmds : List (List String)) : List (List String) :=
  if (flushTok cur started toks).isEmpty then cmds else cmds ++ [flushTok cur started toks]

/-- Modelled from the spec: the tokenizer scan of pkg/parser.BashParser.Parse
(spec section 4.1). Scans left to right tracking quote and escape state;
unquoted chaining operators and pipes start a new command; whitespace outside
quotes separates tokens; an unterminated quote or trailing unescaped backslash
is a hard parse failure. -/
def scanAux : List Char → QMode → List Char → Bool → List String → List (List String) →
    Except String (List (List String))
  | [], QMode.norm, cur, started, toks, cmds => Except.ok (flushCmd cur started toks cmds)
  | [], QMode.single, _, _, _, _ => Except.error "unterminated single quote"
  | [], QMode.double, _, _, _, _ => Except.error "unterminated double quote"
  | '\'' :: cs, QMode.single, cur, started, toks, cmds =>
    scanAux cs QMode.norm cur started toks cmds
  | c :: cs, QMode.single, cur, started, toks, cmds =>
    scanAux cs QMode.single (cur ++ [c]) started toks cmds
  | '"' :: cs, QMode.double, cur, started, toks, cmds =>
    scanAux cs QMode.norm cur started toks cmds
  | '\\' :: '"' :: cs, QMode.double, cur, started, toks, cmds =>
    scanAux cs QMode.double (cur ++ ['"']) started toks cmds
  | '\\' :: '\\' :: cs, QMode.double, cur, started, toks, cmds =>
    scanAux cs QMode.double (cur ++ ['\\']) started toks cmds
  | '\\' :: c2 :: cs, QMode.double, cur, started, toks, cmds =>
    scanAux cs QMode.double (cur ++ ['\\', c2]) started toks cmds
  | ['\\'], QMode.double, _, _, _, _ => Except.error "unterminated double quote"
  | c :: cs, QMode.double, cur, started, toks, cmds =>
    scanAux cs QMode.double (cur ++ [c]) started toks cmds
  | '\\' :: c2 :: cs, QMode.norm, cur, _, toks, cmds =>
    scanAux cs QMode.norm (cur ++ [c2]) true toks cmds
  | ['\\'], QMode.norm, _, _, _, _ => Except.error "trailing backslash"
  | '\'' :: cs, QMode.norm, cur, _, toks, cmds =>
    scanAux cs QMode.single cur true toks cmds
  | '"' :: cs, QMode.norm, cur, _, toks, cmds =>
    scanAux cs QMode.double cur true toks cmds
  | '&' :: '&' :: cs, QMode.norm, cur, started, toks, cmds =>
    scanAux cs QMode.norm [] false [] (flushCmd cur started toks cmds)
  | '|' :: '|' :: cs, QMode.norm, cur, started, toks, cmds =>
    scanAux cs QMode.norm [] false [] (flushCmd cur started toks cmds)
  | ';' :: cs, QMode.norm, cur, started, toks, cmds =>
    scanAux cs QMode.norm [] false [] (flushCmd cur started toks cmds)
  | '|' :: cs, QMode.norm, cur, started, toks, cmds =>
    scanAux cs QMode.norm [] false [] (flushCmd cur started toks cmds)
  | ' ' :: cs, QMode.norm, cur, started, toks, cmds =>
    scanAux cs QMode.norm [] false (flushTok cur started toks) cmds
  | '\t' :: cs, QMode.norm, cur, started, toks, cmds =>
    scanAux cs QMode.norm [] false (flushTok cur started toks) cmds
  | '\n' :: cs, QMode.norm, cur, started, toks, cmds =>
    scanAux cs QMode.norm [] false (flushTok cur started toks) cmds
  | c :: cs, QMode.norm, cur, _, toks, cmds =>
    scanAux cs QMode.norm (cur ++ [c]) true toks cmds

/-- Package the scanned token lists into Commands: first token is the name,
the rest are the args; empty token lists produce no Command. -/
def toCommands : List (List String) → List Command
  | [] => []
  | [] :: rest => toCommands rest
  | (t :: ts) :: rest => ⟨t, ts⟩ :: toCommands rest

/-- Modelled from the spec: pkg/parser.BashParser.Parse (spec section 4.1),
splitting a raw command line into Commands. -/
def Parse (s : String) : Except String ParseResult :=
  match scanAux s.data QMode.norm [] false [] [] with
  | Except.error e => Except.error e
  | Except.ok toksList => Except.ok ⟨toCommands toksList⟩

/-! ## Git command extractor (pkg/parser, absent from src) -/

/-- GitCommand is the structured (subcommand, flags, args) view of one git
invocation; a value-consuming flag has its value placed in flags immediately
after the flag token. -/
structure GitCommand where
  subcommand : String
  flags : List String
  args : List String
deriving DecidableEq

/-- A token starting with a dash is a flag (strings.HasPrefix(arg, "-")). -/
def isFlag (t : String) : Bool := t.data.head? == some '-'

/-- Modelled from the spec: the static table of flags that take a value for
a given subcommand, -b for checkout and --chmod for add (spec sections 4.3
and 9); unlisted flags consume no value. -/
def takesValue (sub flag : String) : Bool :=
  (sub == "checkout" && flag == "-b") || (sub == "add" && flag == "--chmod")

/-- Modelled from the spec: the flag/argument walk of ExtractGitCommand (spec
section 4.3): a flag that takes a value consumes the following token into
flags; a value-taking flag positioned last is recorded value-less; non-flag
tokens not consumed as values are positional args. -/
def consume (sub : String) : List String → List String × List String
  | [] => ([], [])
  | t :: rest =>
    if isFlag t then
      if takesValue sub t then
        match rest with
        | [] => ([t], [])
        | v :: rest2 => (t :: v :: (consume sub rest2).1, (consume sub rest2).2)
      else (t :: (consume sub rest).1, (consume sub rest).2)
    else ((consume sub rest).1, t :: (consume sub rest).2)

/-- Modelled from the spec: pkg/parser.ParseGitCommand (spec section 4.3).
Fails when the command is not git or has no subcommand; otherwise the first
token is the subcommand and the rest are walked into flags and args. -/
def ParseGitCommand (cmd : Command) : Except String GitCommand :=
  if cmd.name ≠ "git" then Except.error "not a git command"
  else
    match cmd.args with
    | [] => Except.error "git command has no subcommand"
    | sub :: rest => Except.ok ⟨sub, (consume sub rest).1, (consume sub rest).2⟩

/-- Modelled from the spec: GitCommand.HasFlag, exact token match over the
flags sequence (spec section 4.2; BranchValidator calls it on GitCommand). -/
def GitCommand.HasFlag (g : GitCommand) (flag : String) : Bool := g.flags.contains flag

/-! ## BranchValidator (src/unnamed/part_002, internal/validators/git/branch.go) -/

/-- Protected branches that skip validation. -/
def protectedBranch (b : String) : Bool := b == "main" || b == "master"

/-- Valid branch types, in declaration order. -/
def validBranchTypes : List String :=
  ["feat", "fix", "docs", "style", "refactor", "test", "chore", "ci", "build", "perf"]

/-- Lowercase ASCII letter. -/
def isLowerAZ (c : Char) : Bool := 'a' ≤ c && c ≤ 'z'

/-- Character class of the description part of the branch pattern: [a-z0-9-]. -/
def isDescChar (c : Char) : Bool :=
  ('a' ≤ c && c ≤ 'z') || ('0' ≤ c && c ≤ '9') || c == '-'

/-- Split a character list at every slash. -/
def splitOnSlash : List Char → List (List Char)
  | [] => [[]]
  | c :: rest =>
    if c = '/' then [] :: splitOnSlash rest
    else
      match splitOnSlash rest with
      | [] => [[c]]
      | h :: t => (c :: h) :: t

/-- The branch name pattern of the source, regexp `[a-z]+/[a-z0-9-]+` anchored
at both ends: exactly one slash, nonempty lowercase type, nonempty
lowercase/digit/hyphen description. -/
def branchNamePattern (s : String) : Bool :=
  match splitOnSlash s.data with
  | [p1, p2] => !p1.isEmpty && p1.all isLowerAZ && !p2.isEmpty && p2.all isDescChar
  | _ => false

/-- ASCII lowercase mapping of one character (the Go source applies
strings.ToLower; branch names are ASCII command-line tokens). -/
def lowerChar (c : Char) : Char :=
  if 'A' ≤ c ∧ c ≤ 'Z' then Char.ofNat (c.toNat + 32) else c

/-- ASCII strings.ToLower. -/
def asciiLower (s : String) : String := String.mk (s.data.map lowerChar)

/-- strings.SplitN(s, "/", 2): everything before the first slash, then the
remainder; one part when there is no slash. -/
def breakSlash : List Char → List Char × Option (List Char)
  | [] => ([], none)
  | c :: rest =>
    if c = '/' then ([], some rest)
    else ((c :: (breakSlash rest).1), (breakSlash rest).2)

/-- The parts list of strings.SplitN(branchName, "/", minBranchParts). -/
def splitN2 (s : String) : List String :=
  match breakSlash s.data with
  | (a, none) => [String.mk a]
  | (a, some b) => [String.mk a, String.mk b]

/-- Message of createSpaceError. -/
def spaceMessage : String :=
  "Branch name appears to contain spaces\n\n" ++
    "Branch names cannot contain spaces. Use hyphens instead.\n\n" ++
    "Example: feat/my-feature not feat/my feature"

/-- createSpaceError creates an error for branch names with spaces. -/
def createSpaceError : Result := Fail spaceMessage

/-- Message of the lowercase failure. -/
def lowercaseMessage (bn : String) : String :=
  "Branch name must be lowercase\n\n" ++
    "Branch name \x27" ++ bn ++ "\x27 contains uppercase characters\n\n" ++
    "Use: " ++ asciiLower bn

/-- Message of the type/description format failure. -/
def formatMessage (bn : String) : String :=
  "Branch name must follow type/description format\n\n" ++
    "Branch name \x27" ++ bn ++ "\x27 doesn\x27t match pattern\n\n" ++
    "Expected format: <type>/<description>\n" ++
    "Valid types: feat, fix, docs, style, refactor, test, chore, ci, build, perf\n\n" ++
    "Example: feat/add-user-auth or fix/login-bug-123"

/-- Message of the missing type or description failure. -/
def missingPartsMessage (bn : String) : String :=
  "Branch name must contain type and description\n\n" ++
    "Branch name \x27" ++ bn ++ "\x27 is missing type or description\n\n" ++
    "Expected format: <type>/<description>"

/-- strings.Join with a separator, by structural recursion so that it
evaluates in the kernel. -/
def joinWith (sep : String) : List String → String
  | [] => ""
  | [x] => x
  | x :: rest => x ++ sep ++ joinWith sep rest

/-- Message of the invalid branch type failure (the Go source joins the type
set in map-iteration order, which is unspecified; the embedding uses the
declaration order of the table). -/
def invalidTypeMessage (branchType : String) : String :=
  "Invalid branch type\n\n" ++
    "Branch type \x27" ++ branchType ++ "\x27 is not valid\n\n" ++
    "Valid types: " ++ joinWith ", " validBranchTypes

/-- validateBranchName validates the branch name format: protected branches
pass, then lowercase, pattern, part-count and type checks in order. -/
def validateBranchName (bn : String) : Result :=
  if protectedBranch bn then Pass
  else if bn ≠ asciiLower bn then Fail (lowercaseMessage bn)
  else if !branchNamePattern bn then Fail (formatMessage bn)
  else
    let parts := splitN2 bn
    if parts.length ≠ 2 then Fail (missingPartsMessage bn)
    else if !validBranchTypes.contains (parts.headD "") then
      Fail (invalidTypeMessage (parts.headD ""))
    else Pass

/-- The -b value scan inside extractCheckoutBranchName: the loop returns
Flags[i+1] for the first i with Flags[i] = "-b" and i+1 < len(Flags); a
trailing "-b" with no successor never matches the guard. -/
def findBValue : List String → Option String
  | [] => none
  | [_] => none
  | f :: v :: rest => if f = "-b" then some v else findBValue (v :: rest)

/-- extractCheckoutBranchName extracts the branch name from git checkout -b:
the token after -b in flags, else the first positional argument; the second
component reports extra arguments suggesting a branch name with spaces. -/
def extractCheckoutBranchName (g : GitCommand) : String × Bool :=
  match findBValue g.flags with
  | some bn => (bn, !g.args.isEmpty)
  | none =>
    match g.args with
    | [] => ("", false)
    | a :: rest => (a, !rest.isEmpty)

/-- extractBranchCommandName extracts the branch name from git branch: the
first positional argument, with extra arguments reported. -/
def extractBranchCommandName (g : GitCommand) : String × Bool :=
  match g.args with
  | [] => ("", false)
  | a :: rest => (a, !rest.isEmpty)

/-- extractBranchName dispatches on the subcommand. -/
def extractBranchName (g : GitCommand) : String × Bool :=
  match g.subcommand with
  | "checkout" => extractCheckoutBranchName g
  | "branch" => extractBranchCommandName g
  | _ => ("", false)

/-- validateCheckout validates git checkout -b commands; none embeds the Go
nil result. -/
def validateCheckout (g : GitCommand) : Option Result :=
  if !g.HasFlag "-b" then none
  else
    let p := extractBranchName g
    if p.1 = "" then none
    else if p.2 then some createSpaceError
    else some (validateBranchName p.1)

/-- validateBranch validates git branch commands, skipping deletes. -/
def validateBranch (g : GitCommand) : Option Result :=
  if g.HasFlag "-d" || g.HasFlag "-D" || g.HasFlag "--delete" then none
  else
    let p := extractBranchName g
    if p.1 = "" then none
    else if p.2 then some createSpaceError
    else some (validateBranchName p.1)

/-- validateGitCommand validates a git command based on its subcommand. -/
def validateGitCommand (g : GitCommand) : Option Result :=
  match g.subcommand with
  | "checkout" => validateCheckout g
  | "branch" => validateBranch g
  | _ => none

/-- The command loop of BranchValidator.Validate: skip non-git commands and
unparsable git commands; return the first non-nil failing result. -/
def branchLoop : List Command → Result
  | [] => Pass
  | cmd :: rest =>
    if cmd.name ≠ "git" then branchLoop rest
    else
      match ParseGitCommand cmd with
      | Except.error _ => branchLoop rest
      | Except.ok g =>
        match validateGitCommand g with
        | some r => if !r.passed then r else branchLoop rest
        | none => branchLoop rest

/-- BranchValidator.Validate: parse the Bash command; a parse failure
degrades to a Warn result; otherwise run the command loop. -/
def branchValidate (ctx : Context) : Result :=
  match Parse ctx.toolInput.command with
  | Except.error e => Warn ("Failed to parse command: " ++ e)
  | Except.ok pr => branchLoop pr.commands

/-! ## AddValidator (src/unnamed/part_001, internal/validators/git/add.go) -/

/-- ASCII whitespace test used to embed strings.TrimSpace(arg) == "". -/
def isBlank (s : String) : Bool :=
  s.data.all (fun c => c = ' ' ∨ c = '\t' ∨ c = '\n' ∨ c = '\r')

/-- Go path/filepath.Clean, lexical path cleaning: drop empty and dot
elements, resolve dot-dot against the element stack, keep leading dot-dots
of relative paths, return dot for an empty result. -/
def cleanPath (p : String) : String :=
  if p = "" then "."
  else
    let rooted := p.data.head? == some '/'
    let stack := ((splitOnSlash p.data).map String.mk).foldl
      (fun stack c =>
        if c = "" ∨ c = "." then stack
        else if c = ".." then
          if rooted then if stack.isEmpty then stack else stack.dropLast
          else if stack.isEmpty ∨ stack.getLast? == some ".." then stack ++ [".."]
          else stack.dropLast
        else stack ++ [c]) []
    let joined := joinWith "/" stack
    if rooted then "/" ++ joined
    else if joined = "" then "." else joined

/-- extractFilePaths extracts file paths from git add arguments: skip a flag
value when the previous flag (--chmod) expects one, skip blank arguments,
flags and the bare dot, and clean every kept path. -/
def extractFilePathsAux : List String → Bool → List String
  | [], _ => []
  | arg :: rest, skipNext =>
    if skipNext then extractFilePathsAux rest false
    else if arg = "" ∨ isBlank arg then extractFilePathsAux rest false
    else if isFlag arg then
      if arg = "--chmod" then extractFilePathsAux rest true
      else extractFilePathsAux rest false
    else if arg = "." then extractFilePathsAux rest false
    else cleanPath arg :: extractFilePathsAux rest false

/-- extractFilePaths with the initial skipNext state. -/
def extractFilePaths (args : List String) : List String := extractFilePathsAux args false

/-- String prefix test embedding strings.HasPrefix. -/
def hasPrefixStr (pre s : String) : Bool := pre.data.isPrefixOf s.data

/-- The tmp files collected over all git add commands of one parse result. -/
def collectTmpFiles (cmds : List Command) : List String :=
  cmds.foldl
    (fun acc cmd =>
      if cmd.name = "git" ∧ cmd.args.head? = some "add" then
        acc ++ (extractFilePaths cmd.args.tail).filter (fun f => hasPrefixStr "tmp/" f)
      else acc) []

/-- Help detail text of the AddValidator failure. -/
def addHelpText (tmpFiles : List String) : String :=
  "Files in tmp/ should be in .gitignore or .git/info/exclude\n\n" ++
    "Files being added:\n" ++
    joinWith "" (tmpFiles.map (fun f => "  - " ++ f ++ "\n")) ++
    "\nAdd tmp/ to .git/info/exclude:\n  echo \x27tmp/\x27 >> .git/info/exclude"

/-- AddValidator.Validate: pass when not inside a git repository (the
rev-parse call failed, embedded as the gitRootFound argument); a parse
failure degrades to a Warn result; otherwise fail when any git add stages a
tmp/ path. -/
def addValidate (gitRootFound : Bool) (ctx : Context) : Result :=
  if !gitRootFound then Pass
  else
    match Parse ctx.GetCommand with
    | Except.error e => Warn ("Failed to parse command: " ++ e)
    | Except.ok pr =>
      let tmpFiles := collectTmpFiles pr.commands
      if !tmpFiles.isEmpty then
        (Fail "Attempting to add files from tmp/ directory").AddDetail "help"
          (addHelpText tmpFiles)
      else Pass

/-! ## Statement vocabulary: character classes, segments and fixtures -/

/-- A character with no special meaning to the tokenizer scan: not an
operator character, quote, backslash or whitespace. -/
def simpleChar (c : Char) : Bool :=
  !(c == '&' || c == '|' || c == ';' || c == '\'' || c == '"' ||
    c == '\\' || c == ' ' || c == '\t' || c == '\n')

/-- A shell word: a nonempty run of simple characters. -/
def wordOK (w : List Char) : Bool := !w.isEmpty && w.all simpleChar

/-- A well-formed segment between chaining operators: a nonempty list of
words. -/
def segOK (seg : List (List Char)) : Bool := !seg.isEmpty && seg.all wordOK

/-- The chaining operators of the claim: logical and, logical or, semicolon. -/
def chainOp (op : List Char) : Bool :=
  op == ['&', '&'] || op == ['|', '|'] || op == [';']

/-- Render one segment: its words separated by single spaces. -/
def renderSeg : List (List Char) → List Char
  | [] => []
  | [w] => w
  | w :: ws => w ++ ' ' :: renderSeg ws

/-- Render a chained command line: segments joined by space-surrounded
chaining operators. -/
def joinChain : List (List (List Char)) → List (List Char) → List Char
  | [seg], [] => renderSeg seg
  | seg :: segs, op :: ops => renderSeg seg ++ ' ' :: (op ++ ' ' :: joinChain segs ops)
  | _, _ => []

/-- The Command a segment tokenizes to: first word as name, rest as args. -/
def segCommand (seg : List (List Char)) : Command :=
  match seg with
  | [] => ⟨"", []⟩
  | w :: ws => ⟨String.mk w, ws.map String.mk⟩

/-- The tokenizer state after consuming a rendered segment from a fresh
token state: the closed tokens so far and the final in-progress token. -/
def consumeSeg : List (List Char) → List String → List String × List Char
  | [], toks => (toks, [])
  | [w], toks => (toks, w)
  | w :: ws, toks => consumeSeg ws (toks ++ [String.mk w])

/-- The word git. -/
def gitWord : List Char := ['g', 'i', 't']

/-- The word add. -/
def addWord : List Char := ['a', 'd', 'd']

/-- The one-letter word x. -/
def xWord : List Char := ['x']

/-- The one-letter word y. -/
def yWord : List Char := ['y']

/-- The chaining operator of two ampersands. -/
def ampOp : List Char := ['&', '&']

/-- Two git add segments, for witnesses. -/
def segsAddXY : List (List (List Char)) := [[gitWord, addWord, xWord], [gitWord, addWord, yWord]]

/-- Quoted text containing a chaining operator, for witnesses. -/
def quotedInner : List Char := ['a', ' ', '&', '&', ' ', 'b']

/-- The word checkout. -/
def checkoutWord : List Char := ['c', 'h', 'e', 'c', 'k', 'o', 'u', 't']

/-- The flag token -b. -/
def dashBWord : List Char := ['-', 'b']

/-- A git checkout -b command line with a branch name and trailing extra
positional words. -/
def checkoutCmdStr (nm : List Char) (extras : List (List Char)) : String :=
  String.mk (renderSeg (gitWord :: checkoutWord :: dashBWord :: nm :: extras))

/-- A Bash-tool PreToolUse context carrying the given command string. -/
def bashCtx (s : String) : Context :=
  ⟨EventType.PreToolUse, ToolType.Bash, ⟨s, "", "", "", "", "", "", []⟩, "", ""⟩

/-- A concrete context with an empty command. -/
def emptyCtx : Context := bashCtx ""

/-- A concrete blocking validation error. -/
def errBlocking : ValidationError := ⟨"validate-branch-name", "bad branch", [], true⟩

/-- A concrete non-blocking validation error. -/
def errWarning : ValidationError := ⟨"validate-git-add", "heads up", [], false⟩

/-- A concrete Write context with both file path fields set. -/
def fileCtxBoth : Context :=
  ⟨EventType.PreToolUse, ToolType.Write, ⟨"", "a.txt", "b.txt", "", "", "", "", []⟩, "", ""⟩

/-- A concrete Write context with only the alternative path field set. -/
def fileCtxPathOnly : Context :=
  ⟨EventType.PreToolUse, ToolType.Write, ⟨"", "", "b.txt", "", "", "", "", []⟩, "", ""⟩

/-! ## Dispatcher lemmas -/

theorem shouldBlock_eq_any (errs : List ValidationError) :
    ShouldBlock errs = errs.any (fun e => e.shouldBlock) := by
  induction errs with
  | nil => rfl
  | cons a t ih => cases ha : a.shouldBlock <;> simp [ShouldBlock, ha, ih]

theorem dispatchLoop_eq_filterMap (ctx : Context) (vs : List Validator) :
    dispatchLoop ctx vs = vs.filterMap (fun v =>
      if (v.validate ctx).passed then none
      else some ⟨v.name, (v.validate ctx).message, (v.validate ctx).details,
        (v.validate ctx).shouldBlock⟩) := by
  induction vs with
  | nil => rfl
  | cons v t ih => cases h : (v.validate ctx).passed <;> simp [dispatchLoop, h, ih]

theorem dispatchLoop_length (ctx : Context) (vs : List Validator) :
    (dispatchLoop ctx vs).length
      = (vs.filter (fun v => !(v.validate ctx).passed)).length := by
  induction vs with
  | nil => rfl
  | cons v t ih => cases h : (v.validate ctx).passed <;> simp [dispatchLoop, h, ih]

theorem dispatch_eq_loop (reg : List RegisteredValidator) (ctx : Context) :
    Dispatch reg ctx = dispatchLoop ctx (FindValidators reg ctx) := by
  simp only [Dispatch]
  cases h : FindValidators reg ctx with
  | nil => simp [dispatchLoop]
  | cons a t => simp

/-! ## Tokenizer scan lemmas -/

theorem mk_data (cs : List Char) : (String.mk cs).data = cs := rfl

theorem scan_nil (cur : List Char) (st : Bool) (toks : List String)
    (cmds : List (List String)) :
    scanAux [] QMode.norm cur st toks cmds = Except.ok (flushCmd cur st toks cmds) := rfl

theorem scan_space (cs : List Char) (cur : List Char) (st : Bool) (toks : List String)
    (cmds : List (List String)) :
    scanAux (' ' :: cs) QMode.norm cur st toks cmds
      = scanAux cs QMode.norm [] false (flushTok cur st toks) cmds := rfl

theorem scan_semi (cs : List Char) (cur : List Char) (st : Bool) (toks : List String)
    (cmds : List (List String)) :
    scanAux (';' :: cs) QMode.norm cur st toks cmds
      = scanAux cs QMode.norm [] false [] (flushCmd cur st toks cmds) := rfl

theorem scan_amp2 (cs : List Char) (cur : List Char) (st : Bool) (toks : List String)
    (cmds : List (List String)) :
    scanAux ('&' :: '&' :: cs) QMode.norm cur st toks cmds
      = scanAux cs QMode.norm [] false [] (flushCmd cur st toks cmds) := rfl

theorem scan_pipe2 (cs : List Char) (cur : List Char) (st : Bool) (toks : List String)
    (cmds : List (List String)) :
    scanAux ('|' :: '|' :: cs) QMode.norm cur st toks cmds
      = scanAux cs QMode.norm [] false [] (flushCmd cur st toks cmds) := rfl

theorem scan_dquote_open (cs : List Char) (cur : List Char) (st : Bool)
    (toks : List String) (cmds : List (List String)) :
    scanAux ('"' :: cs) QMode.norm cur st toks cmds
      = scanAux cs QMode.double cur true toks cmds := rfl

theorem scan_squote_open (cs : List Char) (cur : List Char) (st : Bool)
    (toks : List String) (cmds : List (List String)) :
    scanAux ('\'' :: cs) QMode.norm cur st toks cmds
      = scanAux cs QMode.single cur true toks cmds := rfl

theorem scan_dquote_close (cs : List Char) (cur : List Char) (st : Bool)
    (toks : List String) (cmds : List (List String)) :
    scanAux ('"' :: cs) QMode.double cur st toks cmds
      = scanAux cs QMode.norm cur st toks cmds := rfl

theorem scan_squote_close (cs : List Char) (cur : List Char) (st : Bool)
    (toks : List String) (cmds : List (List String)) :
    scanAux ('\'' :: cs) QMode.single cur st toks cmds
      = scanAux cs QMode.norm cur st toks cmds := rfl

set_option maxHeartbeats 4000000 in
theorem scan_simple (c : Char) (hc : simpleChar c = true) (cs : List Char)
    (cur : List Char) (st : Bool) (toks : List String) (cmds : List (List String)) :
    scanAux (c :: cs) QMode.norm cur st toks cmds
      = scanAux cs QMode.norm (cur ++ [c]) true toks cmds := by
  have h : ¬(c = '&') ∧ ¬(c = '|') ∧ ¬(c = ';') ∧ ¬(c = '\'') ∧ ¬(c = '"') ∧
      ¬(c = '\\') ∧ ¬(c = ' ') ∧ ¬(c = '\t') ∧ ¬(c = '\n') := by
    simpa [simpleChar, not_or, and_assoc] using hc
  obtain ⟨h1, h2, h3, h4, h5, h6, h7, h8, h9⟩ := h
  rw [scanAux.eq_def]
  split <;> simp_all

set_option maxHeartbeats 4000000 in
theorem scan_double_char (c : Char) (h1 : ¬(c = '"')) (h2 : ¬(c = '\\'))
    (cs : List Char) (cur : List Char) (st : Bool) (toks : List String)
    (cmds : List (List String)) :
    scanAux (c :: cs) QMode.double cur st toks cmds
      = scanAux cs QMode.double (cur ++ [c]) st toks cmds := by
  rw [scanAux.eq_def]
  split <;> simp_all

set_option maxHeartbeats 4000000 in
theorem scan_single_char (c : Char) (h1 : ¬(c = '\'')) (cs : List Char)
    (cur : List Char) (st : Bool) (toks : List String) (cmds : List (List String)) :
    scanAux (c :: cs) QMode.single cur st toks cmds
      = scanAux cs QMode.single (cur ++ [c]) st toks cmds := by
  rw [scanAux.eq_def]
  split <;> simp_all

theorem scan_word (w : List Char) :
    w.all simpleChar = true → w ≠ [] →
    ∀ (cs : List Char) (cur : List Char) (st : Bool) (toks : List String)
      (cmds : List (List String)),
      scanAux (w ++ cs) QMode.norm cur st toks cmds
        = scanAux cs QMode.norm (cur ++ w) true toks cmds := by
  induction w with
  | nil => intro _ h; exact absurd rfl h
  | cons c w ih =>
    intro hall _ cs cur st toks cmds
    simp only [List.all_cons, Bool.and_eq_true] at hall
    rw [List.cons_append, scan_simple c hall.1]
    cases w with
    | nil => simp
    | cons c2 w2 =>
      rw [ih hall.2 (by simp)]
      simp

theorem scan_double_list (inner : List Char) :
    inner.all (fun c => !(c == '"') && !(c == '\\')) = true →
    ∀ (cs : List Char) (cur : List Char) (st : Bool) (toks : List String)
      (cmds : List (List String)),
      scanAux (inner ++ cs) QMode.double cur st toks cmds
        = scanAux cs QMode.double (cur ++ inner) st toks cmds := by
  induction inner with
  | nil => intro _ cs cur st toks cmds; simp
  | cons c w ih =>
    intro hall cs cur st toks cmds
    simp only [List.all_cons, Bool.and_eq_true, Bool.not_eq_true', beq_eq_false_iff_ne,
      ne_eq] at hall
    rw [List.cons_append, scan_double_char c hall.1.1 hall.1.2]
    rw [ih (by simpa using hall.2)]
    simp

theorem scan_single_list (inner : List Char) :
    inner.all (fun c => !(c == '\'')) = true →
    ∀ (cs : List Char) (cur : List Char) (st : Bool) (toks : List String)
      (cmds : List (List String)),
      scanAux (inner ++ cs) QMode.single cur st toks cmds
        = scanAux cs QMode.single (cur ++ inner) st toks cmds := by
  induction inner with
  | nil => intro _ cs cur st toks cmds; simp
  | cons c w ih =>
    intro hall cs cur st toks cmds
    simp only [List.all_cons, Bool.and_eq_true, Bool.not_eq_true', beq_eq_false_iff_ne,
      ne_eq] at hall
    rw [List.cons_append, scan_single_char c hall.1]
    rw [ih (by simpa using hall.2)]
    simp

theorem scan_seg (ws : List (List Char)) :
    ∀ (w : List Char), (w :: ws).all wordOK = true →
    ∀ (cs : List Char) (toks : List String) (cmds : List (List String)),
      scanAux (renderSeg (w :: ws) ++ cs) QMode.norm [] false toks cmds
        = scanAux cs QMode.norm (consumeSeg (w :: ws) toks).2 true
            (consumeSeg (w :: ws) toks).1 cmds := by
  induction ws with
  | nil =>
    intro w hall cs toks cmds
    simp only [List.all_cons, List.all_nil, Bool.and_true, wordOK, Bool.and_eq_true,
      Bool.not_eq_true', List.isEmpty_eq_false] at hall
    simp only [renderSeg, consumeSeg]
    rw [scan_word w hall.2 hall.1]
    simp
  | cons w2 ws ih =>
    intro w hall cs toks cmds
    have hw : wordOK w = true := by
      simp only [List.all_cons, Bool.and_eq_true] at hall
      exact hall.1
    have hrest : (w2 :: ws).all wordOK = true := by
      simp only [List.all_cons, Bool.and_eq_true] at hall ⊢
      exact hall.2
    simp only [wordOK, Bool.and_eq_true, Bool.not_eq_true', List.isEmpty_eq_false] at hw
    have hrender : renderSeg (w :: w2 :: ws) = w ++ ' ' :: renderSeg (w2 :: ws) := rfl
    rw [hrender]
    have hassoc : (w ++ ' ' :: renderSeg (w2 :: ws)) ++ cs
        = w ++ (' ' :: (renderSeg (w2 :: ws) ++ cs)) := by simp
    rw [hassoc, scan_word w hw.2 hw.1, scan_space]
    have hflush : flushTok ([] ++ w) true toks = toks ++ [String.mk w] := by
      simp [flushTok]
    rw [hflush, ih w2 hrest]
    rfl

theorem consumeSeg_spec (ws : List (List Char)) :
    ∀ (w : List Char) (toks : List String),
      (consumeSeg (w :: ws) toks).1 ++ [String.mk (consumeSeg (w :: ws) toks).2]
        = toks ++ (w :: ws).map String.mk := by
  induction ws with
  | nil => intro w toks; simp [consumeSeg]
  | cons w2 ws ih =>
    intro w toks
    have h : consumeSeg (w :: w2 :: ws) toks = consumeSeg (w2 :: ws) (toks ++ [String.mk w]) :=
      rfl
    rw [h, ih w2]
    simp

theorem flush_consumeSeg (seg : List (List Char)) (h : seg ≠ [])
    (cmds : List (List String)) :
    flushCmd (consumeSeg seg []).2 true (consumeSeg seg []).1 cmds
      = cmds ++ [seg.map String.mk] := by
  cases seg with
  | nil => exact absurd rfl h
  | cons w ws =>
    have hspec := consumeSeg_spec ws w []
    simp only [List.nil_append] at hspec
    simp [flushCmd, flushTok, hspec]

theorem scan_chain (segs : List (List (List Char))) :
    ∀ (ops : List (List Char)) (cmds : List (List String)),
    segs.all segOK = true → ops.all chainOp = true →
    ops.length + 1 = segs.length →
    scanAux (joinChain segs ops) QMode.norm [] false [] cmds
      = Except.ok (cmds ++ segs.map (fun s => s.map String.mk)) := by
  induction segs with
  | nil => intro ops cmds _ _ hlen; simp at hlen
  | cons seg segs ih =>
    intro ops cmds hsegs hops hlen
    have hseg : segOK seg = true := by
      simp only [List.all_cons, Bool.and_eq_true] at hsegs
      exact hsegs.1
    have hsegs2 : segs.all segOK = true := by
      simp only [List.all_cons, Bool.and_eq_true] at hsegs
      exact hsegs.2
    obtain ⟨w, ws, rfl⟩ : ∃ w ws, seg = w :: ws := by
      cases seg with
      | nil => simp [segOK] at hseg
      | cons w ws => exact ⟨w, ws, rfl⟩
    have hwords : (w :: ws).all wordOK = true := by
      simp only [segOK, Bool.and_eq_true] at hseg
      exact hseg.2
    cases ops with
    | nil =>
      have hnil : segs = [] := by
        cases segs with
        | nil => rfl
        | cons a b => simp at hlen
      subst hnil
      have hjoin : joinChain [w :: ws] [] = renderSeg (w :: ws) := rfl
      rw [hjoin]
      have := scan_seg ws w hwords [] [] cmds
      simp only [List.append_nil] at this
      rw [this]
      have hend : scanAux [] QMode.norm (consumeSeg (w :: ws) []).2 true
          (consumeSeg (w :: ws) []).1 cmds
          = Except.ok (flushCmd (consumeSeg (w :: ws) []).2 true
              (consumeSeg (w :: ws) []).1 cmds) := rfl
      rw [hend, flush_consumeSeg (w :: ws) (by simp) cmds]
      simp
    | cons op ops2 =>
      obtain ⟨seg2, segs2, rfl⟩ : ∃ seg2 segs2, segs = seg2 :: segs2 := by
        cases segs with
        | nil => simp at hlen
        | cons a b => exact ⟨a, b, rfl⟩
      have hop : chainOp op = true := by
        simp only [List.all_cons, Bool.and_eq_true] at hops
        exact hops.1
      have hops2 : ops2.all chainOp = true := by
        simp only [List.all_cons, Bool.and_eq_true] at hops
        exact hops.2
      have hlen2 : ops2.length + 1 = (seg2 :: segs2).length := by
        simpa using hlen
      have hjoin : joinChain ((w :: ws) :: seg2 :: segs2) (op :: ops2)
          = renderSeg (w :: ws) ++ (' ' :: (op ++ ' ' :: joinChain (seg2 :: segs2) ops2)) :=
        rfl
      rw [hjoin, scan_seg ws w hwords, scan_space]
      have hflush : flushTok (consumeSeg (w :: ws) []).2 true (consumeSeg (w :: ws) []).1
          = (w :: ws).map String.mk := by
        have hspec := consumeSeg_spec ws w []
        simp only [List.nil_append] at hspec
        simp [flushTok, hspec]
      rw [hflush]
      have hbound : scanAux (op ++ ' ' :: joinChain (seg2 :: segs2) ops2) QMode.norm []
          false ((w :: ws).map String.mk) cmds
          = scanAux (joinChain (seg2 :: segs2) ops2) QMode.norm [] false []
              (cmds ++ [(w :: ws).map String.mk]) := by
        have hcmd : flushCmd [] false ((w :: ws).map String.mk) cmds
            = cmds ++ [(w :: ws).map String.mk] := by
          simp [flushCmd, flushTok]
        rcases (by simpa [chainOp, or_assoc] using hop :
            op = ['&', '&'] ∨ op = ['|', '|'] ∨ op = [';']) with h | h | h <;>
          subst h
        · rw [List.cons_append, List.cons_append, List.nil_append, scan_amp2, hcmd,
            scan_space]
          simp [flushTok]
        · rw [List.cons_append, List.cons_append, List.nil_append, scan_pipe2, hcmd,
            scan_space]
          simp [flushTok]
        · rw [List.cons_append, List.nil_append, scan_semi, hcmd, scan_space]
          simp [flushTok]
      rw [hbound, ih ops2 (cmds ++ [(w :: ws).map String.mk]) hsegs2 hops2 hlen2]
      simp

theorem toCommands_map_segs (segs : List (List (List Char))) :
    segs.all segOK = true →
    toCommands (segs.map (fun s => s.map String.mk)) = segs.map segCommand := by
  induction segs with
  | nil => intro _; rfl
  | cons seg t ih =>
    intro h
    simp only [List.all_cons, Bool.and_eq_true] at h
    obtain ⟨w, ws, rfl⟩ : ∃ w ws, seg = w :: ws := by
      cases seg with
      | nil => simp [segOK] at h
      | cons w ws => exact ⟨w, ws, rfl⟩
    simp only [List.map_cons, toCommands, segCommand]
    rw [ih h.2]

/-! ## Git extractor lemmas -/

theorem isFlag_mk (w : List Char) (h : w.head? ≠ some '-') :
    isFlag (String.mk w) = false := by
  simp only [isFlag, mk_data]
  exact beq_eq_false_iff_ne.mpr h

theorem consume_nonflags (sub : String) :
    ∀ ts : List String, (∀ t ∈ ts, isFlag t = false) → consume sub ts = ([], ts) := by
  intro ts
  induction ts with
  | nil => intro _; rfl
  | cons t rest ih =>
    intro h
    have ht : isFlag t = false := h t (by simp)
    have hrest := ih (fun x hx => h x (by simp [hx]))
    rw [consume.eq_def]
    simp [ht, hrest]

theorem findBValue_some_inbounds :
    ∀ (fs : List String) (v : String), findBValue fs = some v →
      ∃ i, fs.get? i = some "-b" ∧ fs.get? (i + 1) = some v := by
  intro fs
  induction fs with
  | nil => intro v h; simp [findBValue] at h
  | cons f rest ih =>
    cases rest with
    | nil => intro v h; simp [findBValue] at h
    | cons v2 rest2 =>
      intro v h
      simp only [findBValue] at h
      by_cases hf : f = "-b"
      · rw [if_pos hf] at h
        exact ⟨0, by simp [hf], by simp [Option.some.inj h]⟩
      · rw [if_neg hf] at h
        obtain ⟨i, h1, h2⟩ := ih v h
        exact ⟨i + 1, by simpa using h1, by simpa using h2⟩

/-! ## Claim theorems -/

/-- Claim C1: ShouldBlock on a ValidationError sequence is true exactly when
some element has shouldBlock set; it is false on the empty sequence, and
appending a non-blocking error never changes the result. -/
theorem c1_shouldBlock_iff_any (errs : List ValidationError) (e : ValidationError)
    (he : e.shouldBlock = false) :
    (ShouldBlock errs = true ↔ ∃ x ∈ errs, x.shouldBlock = true) ∧
    ShouldBlock [] = false ∧
    ShouldBlock (errs ++ [e]) = ShouldBlock errs := by
  refine ⟨?_, rfl, ?_⟩
  · rw [shouldBlock_eq_any]
    simp
  · rw [shouldBlock_eq_any, shouldBlock_eq_any]
    simp [he]

/-- Witness for C1 at a concrete blocking error and a concrete appended
non-blocking error. -/
theorem c1_shouldBlock_iff_any_witness :
    (ShouldBlock [errBlocking] = true ↔ ∃ x ∈ [errBlocking], x.shouldBlock = true) ∧
    ShouldBlock [] = false ∧
    ShouldBlock ([errBlocking] ++ [errWarning]) = ShouldBlock [errBlocking] :=
  c1_shouldBlock_iff_any [errBlocking] errWarning rfl

/-- Claim C2: Dispatch is exactly the registry-ordered filterMap turning each
failing Result into one ValidationError preserving message, details and
shouldBlock, with passing validators contributing nothing and no validator
skipped after an earlier blocking failure; the output length equals the
number of failing applicable validators. -/
theorem c2_dispatch_filterMap (reg : List RegisteredValidator) (ctx : Context) :
    Dispatch reg ctx = (FindValidators reg ctx).filterMap (fun v =>
        if (v.validate ctx).passed then none
        else some ⟨v.name, (v.validate ctx).message, (v.validate ctx).details,
          (v.validate ctx).shouldBlock⟩) ∧
      (Dispatch reg ctx).length
        = ((FindValidators reg ctx).filter (fun v => !(v.validate ctx).passed)).length := by
  constructor
  · rw [dispatch_eq_loop]
    exact dispatchLoop_eq_filterMap ctx (FindValidators reg ctx)
  · rw [dispatch_eq_loop]
    exact dispatchLoop_length ctx (FindValidators reg ctx)

/-- Claim C3: when the registry yields no applicable validators, Dispatch
returns the empty sequence without signalling an error, and the aggregation
yields shouldBlock false. -/
theorem c3_no_validators_pass (reg : List RegisteredValidator) (ctx : Context)
    (h : FindValidators reg ctx = []) :
    Dispatch reg ctx = [] ∧ ShouldBlock (Dispatch reg ctx) = false := by
  have hd : Dispatch reg ctx = [] := by rw [dispatch_eq_loop, h]; rfl
  exact ⟨hd, by rw [hd]; rfl⟩

/-- Witness for C3 at the empty registry and a concrete context. -/
theorem c3_no_validators_pass_witness :
    Dispatch [] emptyCtx = [] ∧ ShouldBlock (Dispatch [] emptyCtx) = false :=
  c3_no_validators_pass [] emptyCtx rfl

/-- Claim C4: on every command string the shell parser rejects, both the
BranchValidator and the AddValidator (inside a git repository) degrade to a
non-blocking failing Result whose message carries the parse failure; being
total Lean functions they never crash, and passed is false so the failure is
never silent. -/
theorem c4_parse_error_warns (s e : String) (h : Parse s = Except.error e) :
    branchValidate (bashCtx s) = Warn ("Failed to parse command: " ++ e) ∧
    (branchValidate (bashCtx s)).passed = false ∧
    (branchValidate (bashCtx s)).shouldBlock = false ∧
    addValidate true (bashCtx s) = Warn ("Failed to parse command: " ++ e) ∧
    (addValidate true (bashCtx s)).passed = false ∧
    (addValidate true (bashCtx s)).shouldBlock = false := by
  have hb : branchValidate (bashCtx s) = Warn ("Failed to parse command: " ++ e) := by
    simp [branchValidate, bashCtx, h]
  have ha : addValidate true (bashCtx s) = Warn ("Failed to parse command: " ++ e) := by
    simp [addValidate, Context.GetCommand, bashCtx, h]
  exact ⟨hb, by rw [hb]; rfl, by rw [hb]; rfl, ha, by rw [ha]; rfl, by rw [ha]; rfl⟩

/-- Witness for C4 at a concrete command with an unterminated double quote. -/
theorem c4_parse_error_warns_witness :
    Parse "echo \"a" = Except.error "unterminated double quote" ∧
    (branchValidate (bashCtx "echo \"a") =
        Warn ("Failed to parse command: " ++ "unterminated double quote") ∧
      (branchValidate (bashCtx "echo \"a")).passed = false ∧
      (branchValidate (bashCtx "echo \"a")).shouldBlock = false ∧
      addValidate true (bashCtx "echo \"a") =
        Warn ("Failed to parse command: " ++ "unterminated double quote") ∧
      (addValidate true (bashCtx "echo \"a")).passed = false ∧
      (addValidate true (bashCtx "echo \"a")).shouldBlock = false) :=
  ⟨by decide, c4_parse_error_warns "echo \"a" "unterminated double quote" (by decide)⟩

/-- Claim C5: for every chained command line made of well-formed segments
joined by the operators and-and, or-or or semicolon outside quotes, Parse
returns exactly one Command per segment, in left-to-right order, each being
the whitespace tokenization of its segment; the same operator characters
inside double or single quotes produce a single Command and no split. -/
theorem c5_chain_split :
    (∀ (segs : List (List (List Char))) (ops : List (List Char)),
        segs.all segOK = true → ops.all chainOp = true →
        ops.length + 1 = segs.length →
        Parse (String.mk (joinChain segs ops)) = Except.ok ⟨segs.map segCommand⟩ ∧
          (segs.map segCommand).length = segs.length) ∧
    (∀ inner : List Char, inner.all (fun c => !(c == '"') && !(c == '\\')) = true →
        Parse (String.mk ('"' :: (inner ++ ['"']))) =
          Except.ok ⟨[⟨String.mk inner, []⟩]⟩) ∧
    (∀ inner : List Char, inner.all (fun c => !(c == '\'')) = true →
        Parse (String.mk ('\'' :: (inner ++ ['\'']))) =
          Except.ok ⟨[⟨String.mk inner, []⟩]⟩) := by
  refine ⟨?_, ?_, ?_⟩
  · intro segs ops hsegs hops hlen
    have hscan := scan_chain segs ops [] hsegs hops hlen
    simp only [List.nil_append] at hscan
    refine ⟨?_, by simp⟩
    simp only [Parse, mk_data, hscan, toCommands_map_segs segs hsegs]
  · intro inner h
    have hchain : scanAux ('"' :: (inner ++ ['"'])) QMode.norm [] false [] []
        = Except.ok [[String.mk inner]] := by
      rw [scan_dquote_open, scan_double_list inner h, scan_dquote_close]
      simp only [List.nil_append, scan_nil]
      simp [flushCmd, flushTok]
    simp only [Parse, mk_data, hchain, toCommands]
  · intro inner h
    have hchain : scanAux ('\'' :: (inner ++ ['\''])) QMode.norm [] false [] []
        = Except.ok [[String.mk inner]] := by
      rw [scan_squote_open, scan_single_list inner h, scan_squote_close]
      simp only [List.nil_append, scan_nil]
      simp [flushCmd, flushTok]
    simp only [Parse, mk_data, hchain, toCommands]

/-- Witness for C5 at the chained command git add x and-and git add y and at
quoted operator text in both quote styles. -/
theorem c5_chain_split_witness :
    (Parse (String.mk (joinChain segsAddXY [ampOp])) =
        Except.ok ⟨segsAddXY.map segCommand⟩ ∧
      (segsAddXY.map segCommand).length = segsAddXY.length) ∧
    Parse (String.mk ('"' :: (quotedInner ++ ['"']))) =
      Except.ok ⟨[⟨String.mk quotedInner, []⟩]⟩ ∧
    Parse (String.mk ('\'' :: (quotedInner ++ ['\'']))) =
      Except.ok ⟨[⟨String.mk quotedInner, []⟩]⟩ :=
  ⟨c5_chain_split.1 segsAddXY [ampOp] (by decide) (by decide) (by decide),
    c5_chain_split.2.1 quotedInner (by decide),
    c5_chain_split.2.2 quotedInner (by decide)⟩

/-- Claim C6: parsing git checkout -b feat/foo yields the git Command with
args checkout, -b, feat/foo, and extraction yields subcommand checkout,
flags -b and its consumed value feat/foo in order, and no positional args. -/
theorem c6_checkout_b_extraction :
    Parse "git checkout -b feat/foo" =
      Except.ok ⟨[⟨"git", ["checkout", "-b", "feat/foo"]⟩]⟩ ∧
    ParseGitCommand ⟨"git", ["checkout", "-b", "feat/foo"]⟩ =
      Except.ok ⟨"checkout", ["-b", "feat/foo"], []⟩ :=
  ⟨by decide, by decide⟩

/-- Counterexample to claim C8: Parse on the quoted echo command returns one
Command whose args list is exactly the single de-quoted token a-and-and-b,
which differs from the claimed two-token list that would duplicate the
command name into args. -/
theorem c8_counterexample :
    Parse "echo \"a && b\"" = Except.ok ⟨[⟨"echo", ["a && b"]⟩]⟩ ∧
    (["a && b"] : List String) ≠ ["echo", "a && b"] :=
  ⟨by decide, by decide⟩

/-- Claim C8 as amended: Parse on the quoted echo command returns exactly one
Command with name echo and args the single token a-and-and-b; the name holds
the first de-quoted token and args hold the tokens after it. -/
theorem c8_amended_quoted_args :
    Parse "echo \"a && b\"" = Except.ok ⟨[⟨"echo", ["a && b"]⟩]⟩ := by decide

/-- Claim C9: a value-taking flag in final position is recorded as a
value-less flags entry; the extraction of git checkout -b with nothing after
-b succeeds with flags equal to the single -b token; the branch-name scan
reads a flag value only at an in-bounds successor index, and on the trailing
-b it safely falls through to the empty result. -/
theorem c9_last_flag_valueless :
    (∀ sub f, isFlag f = true → takesValue sub f = true →
        consume sub [f] = ([f], [])) ∧
    ParseGitCommand ⟨"git", ["checkout", "-b"]⟩ =
      Except.ok ⟨"checkout", ["-b"], []⟩ ∧
    extractCheckoutBranchName ⟨"checkout", ["-b"], []⟩ = ("", false) ∧
    (∀ fs v, findBValue fs = some v →
        ∃ i, fs.get? i = some "-b" ∧ fs.get? (i + 1) = some v) := by
  refine ⟨?_, by decide, by decide, findBValue_some_inbounds⟩
  intro sub f h1 h2
  simp [consume, h1, h2]

/-- Witness for C9 at the checkout subcommand with a trailing -b, and at a
flags list where -b does have an in-bounds value. -/
theorem c9_last_flag_valueless_witness :
    consume "checkout" ["-b"] = (["-b"], []) ∧
    (∃ i, ["-b", "feat/x"].get? i = some "-b" ∧
      ["-b", "feat/x"].get? (i + 1) = some "feat/x") :=
  ⟨c9_last_flag_valueless.1 "checkout" "-b" (by decide) (by decide),
    c9_last_flag_valueless.2.2.2 ["-b", "feat/x"] "feat/x" (by decide)⟩

/-- Claim C7: for every Bash command of the form git checkout -b name extra...
with one or more positional words after the branch name, BranchValidator
returns the failing space-heuristic Result, whose message opens with the
branch-name-appears-to-contain-spaces text, not a parse error. -/
theorem c7_extra_args_space_error (nm : List Char) (extras : List (List Char))
    (hn : nm ≠ []) (hna : nm.all simpleChar = true) (hx : extras ≠ [])
    (hxa : ∀ w ∈ extras, wordOK w = true ∧ w.head? ≠ some '-') :
    branchValidate (bashCtx (checkoutCmdStr nm extras)) = createSpaceError ∧
      createSpaceError.passed = false ∧
      hasPrefixStr "Branch name appears to contain spaces" createSpaceError.message = true := by
  refine ⟨?_, rfl, by decide⟩
  obtain ⟨e1, es, rfl⟩ : ∃ e1 es, extras = e1 :: es := by
    cases extras with
    | nil => exact absurd rfl hx
    | cons a b => exact ⟨a, b, rfl⟩
  have hsegOK : segOK (gitWord :: checkoutWord :: dashBWord :: nm :: e1 :: es) = true := by
    simp only [segOK, List.isEmpty_cons, Bool.not_false, List.all_cons, Bool.and_eq_true,
      Bool.true_and]
    refine ⟨by decide, by decide, by decide, ?_, ?_, ?_⟩
    · simp [wordOK, hna, hn]
    · exact (hxa e1 (by simp)).1
    · simp only [List.all_eq_true]
      intro w hw
      exact (hxa w (by simp [hw])).1
  have hParse : Parse (checkoutCmdStr nm (e1 :: es)) =
      Except.ok ⟨[⟨"git", "checkout" :: "-b" :: String.mk nm :: String.mk e1 ::
        es.map String.mk⟩]⟩ := by
    have hscan : scanAux (renderSeg (gitWord :: checkoutWord :: dashBWord :: nm :: e1 :: es))
        QMode.norm [] false [] []
        = Except.ok ([] ++ [(gitWord :: checkoutWord :: dashBWord :: nm :: e1 :: es).map
            String.mk]) :=
      scan_chain [gitWord :: checkoutWord :: dashBWord :: nm :: e1 :: es] [] []
        (by simp [hsegOK]) rfl rfl
    simp only [checkoutCmdStr, Parse, mk_data, hscan]
    simp only [List.nil_append, List.map_cons, toCommands]
    rfl
  have hnf : ∀ t ∈ String.mk e1 :: es.map String.mk, isFlag t = false := by
    intro t ht
    rcases List.mem_cons.mp ht with rfl | hm
    · exact isFlag_mk e1 (hxa e1 (by simp)).2
    · obtain ⟨w, hw, rfl⟩ := List.mem_map.mp hm
      exact isFlag_mk w (hxa w (by simp [hw])).2
  have hconsume : consume "checkout" ("-b" :: String.mk nm :: String.mk e1 ::
      es.map String.mk) = (["-b", String.mk nm], String.mk e1 :: es.map String.mk) := by
    have hstep : consume "checkout" ("-b" :: String.mk nm :: String.mk e1 :: es.map String.mk)
        = ("-b" :: String.mk nm ::
            (consume "checkout" (String.mk e1 :: es.map String.mk)).1,
          (consume "checkout" (String.mk e1 :: es.map String.mk)).2) := rfl
    rw [hstep, consume_nonflags "checkout" _ hnf]
  have hPGC : ParseGitCommand ⟨"git", "checkout" :: "-b" :: String.mk nm :: String.mk e1 ::
      es.map String.mk⟩
      = Except.ok ⟨"checkout", ["-b", String.mk nm], String.mk e1 :: es.map String.mk⟩ := by
    have hstep : ParseGitCommand ⟨"git", "checkout" :: "-b" :: String.mk nm :: String.mk e1 ::
        es.map String.mk⟩
        = Except.ok ⟨"checkout",
            (consume "checkout" ("-b" :: String.mk nm :: String.mk e1 :: es.map String.mk)).1,
            (consume "checkout" ("-b" :: String.mk nm :: String.mk e1 :: es.map String.mk)).2⟩ :=
      rfl
    rw [hstep, hconsume]
  have hmkne : String.mk nm ≠ "" := fun habs => hn (by simpa using congrArg String.data habs)
  have hextract : extractBranchName ⟨"checkout", ["-b", String.mk nm],
      String.mk e1 :: es.map String.mk⟩ = (String.mk nm, true) := rfl
  have hVGC : validateGitCommand ⟨"checkout", ["-b", String.mk nm],
      String.mk e1 :: es.map String.mk⟩ = some createSpaceError := by
    show validateCheckout ⟨"checkout", ["-b", String.mk nm], String.mk e1 :: es.map String.mk⟩
      = some createSpaceError
    rw [show validateCheckout ⟨"checkout", ["-b", String.mk nm],
        String.mk e1 :: es.map String.mk⟩
      = (if String.mk nm = "" then none
         else if true then some createSpaceError
         else some (validateBranchName (String.mk nm))) from rfl]
    rw [if_neg hmkne]
    rfl
  show branchValidate (bashCtx (checkoutCmdStr nm (e1 :: es))) = createSpaceError
  have hctx : (bashCtx (checkoutCmdStr nm (e1 :: es))).toolInput.command
      = checkoutCmdStr nm (e1 :: es) := rfl
  simp only [branchValidate, hctx, hParse]
  simp only [branchLoop]
  rw [if_neg (by simp)]
  rw [hPGC]
  simp only [hVGC]
  rfl

/-- Witness for C7 at git checkout -b foo/x y. -/
theorem c7_extra_args_space_error_witness :
    branchValidate (bashCtx (checkoutCmdStr ['f', 'o', 'o', '/', 'x'] [['y']])) =
        createSpaceError ∧
      createSpaceError.passed = false ∧
      hasPrefixStr "Branch name appears to contain spaces" createSpaceError.message = true :=
  c7_extra_args_space_error ['f', 'o', 'o', '/', 'x'] [['y']] (by decide) (by decide)
    (by decide) (by decide)


/-- Claim C10: GetFilePath returns FilePath when it is nonempty, otherwise
Path, and is empty exactly when both fields are empty. -/
theorem c10_getFilePath_precedence (c : Context) :
    (c.toolInput.filePath ≠ "" → c.GetFilePath = c.toolInput.filePath) ∧
    (c.toolInput.filePath = "" → c.GetFilePath = c.toolInput.path) ∧
    (c.GetFilePath = "" ↔ c.toolInput.filePath = "" ∧ c.toolInput.path = "") := by
  by_cases h : c.toolInput.filePath = "" <;> simp [Context.GetFilePath, h]

/-- Witness for C10 at contexts with both fields set and with only the
alternative path set. -/
theorem c10_getFilePath_precedence_witness :
    Context.GetFilePath fileCtxBoth = "a.txt" ∧
    Context.GetFilePath fileCtxPathOnly = "b.txt" :=
  ⟨(c10_getFilePath_precedence fileCtxBoth).1 (by decide),
    (c10_getFilePath_precedence fileCtxPathOnly).2.1 rfl⟩

end Klaudiush
